import Mathlib

/-!
Verification of the checkpoint-metadata core of `compressed_tensors`
(`utils/safetensors_load.py` and `compressors/sparse_compressors/dense.py`).

Strings are embedded as `List Char`.  The Python `re` engine is embedded for
the fragment of patterns that `match_param_name` can build: the pattern
template is `^(.*)\.` ++ param ++ `$`, where `param` is spliced in verbatim,
so the fragment consists of literal characters, backslash-escaped
punctuation, `.` (any character except newline) and postfix `*`.  Patterns
outside this fragment (which Python either rejects or which use unsupported
constructs) are mapped to a failed parse.  Python semantics modelled
explicitly: `(.*)` is greedy and never crosses a newline, `$` matches at the
end of the string or just before a string-final newline, and `re.findall`
with an anchored pattern returns at most one capture.
-/

abbrev SName := List Char

/-- Characters with special meaning in Python regular expressions. -/
def reMetachars : List Char :=
  ['.', '\\', '^', '$', '*', '+', '?', '\x7b', '\x7d', '[', ']', '|', '(', ')']

/-- A string is plain when it contains no Python-regex metacharacter, so it
denotes itself when spliced into a pattern. -/
def plainS (s : SName) : Prop := ∀ c ∈ s, c ∉ reMetachars

instance (s : SName) : Decidable (plainS s) := by
  unfold plainS
  infer_instance

/-- Regular expressions, as needed for the pattern fragment produced by
`match_param_name` (alternation appears only through derivatives). -/
inductive RE where
  | zero
  | eps
  | chr (c : Char)
  | anyc
  | star (r : RE)
  | cat (a b : RE)
  | alt (a b : RE)

/-- Does the regular expression accept the empty string? -/
def RE.nullable : RE → Bool
  | .zero => false
  | .eps => true
  | .chr _ => false
  | .anyc => false
  | .star _ => true
  | .cat a b => a.nullable && b.nullable
  | .alt a b => a.nullable || b.nullable

/-- Brzozowski derivative.  `anyc` models Python `.`, which does not match a
newline. -/
def RE.deriv : RE → Char → RE
  | .zero, _ => .zero
  | .eps, _ => .zero
  | .chr c, d => if d = c then .eps else .zero
  | .anyc, d => if d = '\n' then .zero else .eps
  | .star r, d => .cat (r.deriv d) (.star r)
  | .cat a b, d =>
    if a.nullable then .alt (.cat (a.deriv d) b) (b.deriv d) else .cat (a.deriv d) b
  | .alt a b, d => .alt (a.deriv d) (b.deriv d)

/-- Whole-string match by iterated derivatives. -/
def RE.rmatch (r : RE) (s : SName) : Bool := (s.foldl RE.deriv r).nullable

/-- Parse a parameter name as the regex fragment Python compiles it to:
literal characters, `\`-escaped punctuation, `.`, and postfix `*`.
Returns `none` for patterns outside the fragment.  Outside the fragment
(alternation, groups, classes) Python's behaviour -- truthy tuple results
from multiple groups, or `re.error` -- is NOT modelled: every theorem
quantifying over parameter names therefore restricts them to `plainS`
(metacharacter-free) names, where the model is exact. -/
def parseAtoms : SName → Option (List RE)
  | [] => some []
  | ['\\'] => none
  | '\\' :: d :: '*' :: rest =>
    if d.isAlphanum then none
    else (parseAtoms rest).map (fun l => RE.star (RE.chr d) :: l)
  | '\\' :: d :: rest =>
    if d.isAlphanum then none
    else (parseAtoms rest).map (fun l => RE.chr d :: l)
  | c :: '*' :: rest =>
    if c ∈ reMetachars ∧ c ≠ '.' then none
    else (parseAtoms rest).map (fun l => RE.star (if c = '.' then RE.anyc else RE.chr c) :: l)
  | c :: rest =>
    if c ∈ reMetachars ∧ c ≠ '.' then none
    else (parseAtoms rest).map (fun l => (if c = '.' then RE.anyc else RE.chr c) :: l)

/-- Concatenate a list of atoms into one regular expression. -/
def compileRE (atoms : List RE) : RE := atoms.foldr RE.cat RE.eps

/-- The regex denoting a literal string. -/
def litRE (s : SName) : RE := compileRE (s.map RE.chr)

/-- Python `$`: matches at the end of the string, or just before a newline
that ends the string. -/
def pyDollarMatch (r : RE) (s : SName) : Bool :=
  r.rmatch s || (decide (s.getLast? = some '\n') && r.rmatch s.dropLast)

/-- Can the match `^(.*)\.` ++ r ++ `$` succeed with the group `(.*)`
capturing exactly the first `k` characters of `full`?  The group cannot
contain a newline, must be followed by a literal dot, and the rest of the
string must be accepted by `r` up to a position where `$` matches. -/
def goodK (full : SName) (r : RE) (k : Nat) : Bool :=
  (full.take k).all (fun c => decide (c ≠ '\n')) &&
  decide ((full.drop k).head? = some '.') &&
  pyDollarMatch r (full.drop (k + 1))

/-- Largest `k < n` with `f k`, mirroring the greedy backtracking of `(.*)`. -/
def findGreatest (f : Nat → Bool) : Nat → Option Nat
  | 0 => none
  | n + 1 => if f n then some n else findGreatest f n

/-- Embedding of `match_param_name(full_name, param_name)`: Python
`re.findall(r"^(.*)\." + param_name + r"$", full_name)`, returning the
capture of the greedy group when the anchored pattern matches. -/
def match_param_name (full_name param_name : SName) : Option SName :=
  match parseAtoms param_name with
  | none => none
  | some atoms =>
    match findGreatest (goodK full_name (compileRE atoms)) full_name.length with
    | some k => some (full_name.take k)
    | none => none

/-- Embedding of `merge_names`: `parent_name + "." + child_name`. -/
def merge_names (parent_name child_name : SName) : SName :=
  parent_name ++ '.' :: child_name

/-- Python truthiness of an `Optional[str]`: `None` and `""` are falsy. -/
def pyTruthy : Option SName → Bool
  | some (_ :: _) => true
  | _ => false

theorem rmatch_cons (r : RE) (d : Char) (t : SName) :
    RE.rmatch r (d :: t) = RE.rmatch (r.deriv d) t := rfl

theorem rmatch_zero (t : SName) : RE.rmatch RE.zero t = false := by
  induction t with
  | nil => rfl
  | cons d t ih => rw [rmatch_cons]; exact ih

theorem rmatch_alt (a b : RE) (t : SName) :
    RE.rmatch (RE.alt a b) t = (RE.rmatch a t || RE.rmatch b t) := by
  induction t generalizing a b with
  | nil => rfl
  | cons d t ih => rw [rmatch_cons, rmatch_cons a, rmatch_cons b]; exact ih _ _

theorem rmatch_cat_zero (r : RE) (t : SName) :
    RE.rmatch (RE.cat RE.zero r) t = false := by
  induction t generalizing r with
  | nil => rfl
  | cons d t ih => rw [rmatch_cons]; exact ih r

theorem rmatch_cat_eps (r : RE) (t : SName) :
    RE.rmatch (RE.cat RE.eps r) t = RE.rmatch r t := by
  induction t generalizing r with
  | nil => simp [RE.rmatch, RE.nullable]
  | cons d t ih =>
    rw [rmatch_cons, rmatch_cons r]
    rw [show (RE.cat RE.eps r).deriv d = RE.alt (RE.cat RE.zero r) (r.deriv d) from rfl]
    rw [rmatch_alt, rmatch_cat_zero]
    simp

theorem rmatch_eps_iff (t : SName) : RE.rmatch RE.eps t = true ↔ t = [] := by
  cases t with
  | nil => simp [RE.rmatch, RE.nullable]
  | cons d t =>
    rw [rmatch_cons]
    rw [show RE.eps.deriv d = RE.zero from rfl, rmatch_zero]
    simp

theorem litRE_nil : litRE [] = RE.eps := rfl

theorem litRE_cons (c : Char) (s : SName) :
    litRE (c :: s) = RE.cat (RE.chr c) (litRE s) := rfl

theorem rmatch_lit (s t : SName) : RE.rmatch (litRE s) t = true ↔ t = s := by
  induction s generalizing t with
  | nil => rw [litRE_nil]; exact rmatch_eps_iff t
  | cons c s ih =>
    cases t with
    | nil => simp [litRE_cons, RE.rmatch, RE.nullable]
    | cons d t =>
      rw [litRE_cons, rmatch_cons]
      by_cases h : d = c
      · subst h
        rw [show (RE.cat (RE.chr d) (litRE s)).deriv d = RE.cat RE.eps (litRE s) from by
          simp [RE.deriv, RE.nullable]]
        rw [rmatch_cat_eps, ih]
        simp
      · rw [show (RE.cat (RE.chr c) (litRE s)).deriv d = RE.cat RE.zero (litRE s) from by
          simp [RE.deriv, RE.nullable, h]]
        rw [rmatch_cat_zero]
        simp [h]

theorem findGreatest_eq_some {f : Nat → Bool} {n k : Nat} :
    findGreatest f n = some k ↔
      (k < n ∧ f k = true ∧ ∀ j, k < j → j < n → f j = false) := by
  induction n with
  | zero => simp [findGreatest]
  | succ n ih =>
    rw [findGreatest]
    by_cases h : f n = true
    · rw [if_pos h]
      constructor
      · intro he
        injection he with he
        subst he
        exact ⟨Nat.lt_succ_self _, h, fun j hj hj' => absurd hj (by omega)⟩
      · rintro ⟨hk, hfk, hmax⟩
        by_cases hkn : k = n
        · subst hkn; rfl
        · have hlt : k < n := by omega
          have hfn := hmax n hlt (Nat.lt_succ_self n)
          rw [h] at hfn
          exact absurd hfn (by simp)
    · rw [if_neg h, ih]
      have h' : f n = false := by
        cases hf : f n with
        | false => rfl
        | true => exact absurd hf h
      constructor
      · rintro ⟨hk, hfk, hmax⟩
        refine ⟨by omega, hfk, fun j hj hj' => ?_⟩
        by_cases hjn : j = n
        · subst hjn; exact h'
        · exact hmax j hj (by omega)
      · rintro ⟨hk, hfk, hmax⟩
        have hkn : k ≠ n := by
          intro e; subst e; rw [hfk] at h'; exact absurd h' (by simp)
        exact ⟨by omega, hfk, fun j hj hj' => hmax j hj (by omega)⟩

theorem findGreatest_eq_none {f : Nat → Bool} {n : Nat} :
    findGreatest f n = none ↔ ∀ j, j < n → f j = false := by
  induction n with
  | zero => simp [findGreatest]
  | succ n ih =>
    rw [findGreatest]
    by_cases h : f n = true
    · rw [if_pos h]
      constructor
      · intro he; exact absurd he (by simp)
      · intro hall
        have hfn := hall n (Nat.lt_succ_self n)
        rw [h] at hfn
        exact absurd hfn (by simp)
    · rw [if_neg h, ih]
      have h' : f n = false := by
        cases hf : f n with
        | false => rfl
        | true => exact absurd hf h
      constructor
      · intro hall
        intro j hj
        by_cases hjn : j = n
        · subst hjn; exact h'
        · exact hall j (by omega)
      · intro hall j hj
        exact hall j (by omega)

/-- A plain parameter name compiles to the regex denoting it literally. -/
theorem parseAtoms_plain {s : SName} (h : plainS s) :
    parseAtoms s = some (s.map RE.chr) := by
  induction s with
  | nil => rfl
  | cons c rest ih =>
    have hc : c ∉ reMetachars := h c (List.mem_cons_self c rest)
    have hrest : plainS rest := fun x hx => h x (List.mem_cons_of_mem c hx)
    have hcb : c ≠ '\\' := by intro e; rw [e] at hc; exact hc (by decide)
    have hcd : c ≠ '.' := by intro e; rw [e] at hc; exact hc (by decide)
    have hns : ∀ r rest', rest = r :: rest' → r ≠ '*' := by
      intro r rest' he e
      rw [he] at hrest
      refine (hrest r (List.mem_cons_self r rest')) ?_
      rw [e]; decide
    rw [parseAtoms.eq_def]
    split
    · simp_all
    · simp_all
    · simp_all
    · simp_all
    · rename_i heq
      exfalso
      injection heq with h1 h2
      exact hns _ _ h2 rfl
    · rename_i heq
      injection heq with h1 h2
      subst h1; subst h2
      rw [if_neg (fun hand => hc hand.1), if_neg hcd, ih hrest]
      simp

theorem getLast?_dropLast_iff {t s : SName} {c : Char} :
    (t.getLast? = some c ∧ t.dropLast = s) ↔ t = s ++ [c] := by
  constructor
  · rintro ⟨h1, h2⟩
    rcases List.eq_nil_or_concat t with rfl | ⟨l, a, rfl⟩
    · simp at h1
    · rw [List.concat_eq_append] at h1 h2 ⊢
      rw [List.getLast?_concat] at h1
      injection h1 with h1
      rw [List.dropLast_concat] at h2
      rw [h1, h2]
  · rintro rfl
    exact ⟨by simp, by simp⟩

theorem pyDollarMatch_lit {s rem : SName} :
    pyDollarMatch (litRE s) rem = true ↔ (rem = s ∨ rem = s ++ ['\n']) := by
  unfold pyDollarMatch
  rw [Bool.or_eq_true, Bool.and_eq_true, rmatch_lit, rmatch_lit, decide_eq_true_iff]
  rw [getLast?_dropLast_iff]

theorem goodK_lit_iff {full s : SName} {k : Nat} :
    goodK full (litRE s) k = true ↔
      ('\n' ∉ full.take k ∧ (full.drop k).head? = some '.' ∧
       (full.drop (k + 1) = s ∨ full.drop (k + 1) = s ++ ['\n'])) := by
  unfold goodK
  rw [Bool.and_eq_true, Bool.and_eq_true, pyDollarMatch_lit, decide_eq_true_iff]
  rw [List.all_eq_true]
  constructor
  · rintro ⟨⟨h1, h2⟩, h3⟩
    refine ⟨fun hm => ?_, h2, h3⟩
    have := h1 '\n' hm
    simp at this
  · rintro ⟨h1, h2, h3⟩
    refine ⟨⟨fun c hc => ?_, h2⟩, h3⟩
    simp only [decide_eq_true_iff]
    intro e; rw [e] at hc; exact h1 hc

/-- Decompose a list at a position whose element is known via `head?` of `drop`. -/
theorem drop_eq_cons_of_head? {l : SName} {k : Nat} {c : Char}
    (h : (l.drop k).head? = some c) : l.drop k = c :: l.drop (k + 1) := by
  cases hd : l.drop k with
  | nil => rw [hd] at h; simp at h
  | cons a t =>
    rw [hd] at h
    injection h with h
    subst h
    have ht : t = (l.drop k).tail := by rw [hd]; rfl
    rw [ht, List.tail_drop]

/-- For a plain (metacharacter-free) parameter name and a newline-free full
name, `match_param_name` succeeds with prefix `e` exactly when the full name
is `e ++ "." ++ param`: the suffix is compared literally. -/
theorem match_param_name_plain {full p e : SName} (hp : plainS p) (hnl : '\n' ∉ full) :
    match_param_name full p = some e ↔ full = e ++ '.' :: p := by
  unfold match_param_name
  rw [parseAtoms_plain hp]
  show (match findGreatest (goodK full (litRE p)) full.length with
    | some k => some (full.take k)
    | none => none) = some e ↔ _
  constructor
  · intro hm
    cases hfg : findGreatest (goodK full (litRE p)) full.length with
    | none => rw [hfg] at hm; simp at hm
    | some k =>
      rw [hfg] at hm
      simp only [Option.some.injEq] at hm
      subst hm
      obtain ⟨hk, hgood, -⟩ := findGreatest_eq_some.mp hfg
      obtain ⟨-, hhead, hrest⟩ := goodK_lit_iff.mp hgood
      have hdk : full.drop k = '.' :: full.drop (k + 1) := drop_eq_cons_of_head? hhead
      cases hrest with
      | inl hr =>
        conv_lhs => rw [← List.take_append_drop k full]
        rw [hdk, hr]
      | inr hr =>
        exfalso
        apply hnl
        have : '\n' ∈ full.drop (k + 1) := by rw [hr]; simp
        exact List.drop_subset _ _ this
  · intro hf
    subst hf
    have hlen : (e ++ '.' :: p).length = e.length + 1 + p.length := by
      simp [List.length_append]; omega
    have hfg : findGreatest (goodK (e ++ '.' :: p) (litRE p)) (e ++ '.' :: p).length
        = some e.length := by
      refine findGreatest_eq_some.mpr ⟨by omega, ?_, ?_⟩
      · refine goodK_lit_iff.mpr ⟨?_, ?_, Or.inl ?_⟩
        · rw [List.take_left]
          intro hm
          exact hnl (List.mem_append_left _ hm)
        · rw [List.drop_left]; rfl
        · rw [show e ++ '.' :: p = (e ++ ['.']) ++ p by simp]
          rw [List.drop_left' (by simp)]
      · intro j hj hj'
        cases hgj : goodK (e ++ '.' :: p) (litRE p) j with
        | false => rfl
        | true =>
          exfalso
          obtain ⟨-, -, hrest⟩ := goodK_lit_iff.mp hgj
          have hdlen : ((e ++ '.' :: p).drop (j + 1)).length
              = (e ++ '.' :: p).length - (j + 1) := List.length_drop _ _
          cases hrest with
          | inl hr => rw [hr] at hdlen; omega
          | inr hr =>
            rw [hr] at hdlen
            simp [List.length_append] at hdlen
            omega
    rw [hfg]
    simp only [Option.some.injEq]
    exact List.take_left e ('.' :: p)

/-- The function `match_param_name` is `merge_names`'s left inverse for plain suffixes and newline-free
entity names (the suffix itself may even contain a newline). -/
theorem match_merge_plain {e s : SName} (hs : plainS s) (hnl : '\n' ∉ e) :
    match_param_name (merge_names e s) s = some e := by
  unfold merge_names match_param_name
  rw [parseAtoms_plain hs]
  have hlen : (e ++ '.' :: s).length = e.length + 1 + s.length := by
    simp [List.length_append]; omega
  have hfg : findGreatest (goodK (e ++ '.' :: s) (litRE s)) (e ++ '.' :: s).length
      = some e.length := by
    refine findGreatest_eq_some.mpr ⟨by omega, ?_, ?_⟩
    · refine goodK_lit_iff.mpr ⟨?_, ?_, Or.inl ?_⟩
      · rw [List.take_left]; exact hnl
      · rw [List.drop_left]; rfl
      · rw [show e ++ '.' :: s = (e ++ ['.']) ++ s by simp]
        rw [List.drop_left' (by simp)]
    · intro j hj hj'
      cases hgj : goodK (e ++ '.' :: s) (litRE s) j with
      | false => rfl
      | true =>
        exfalso
        obtain ⟨-, -, hrest⟩ := goodK_lit_iff.mp hgj
        have hdlen : ((e ++ '.' :: s).drop (j + 1)).length
            = (e ++ '.' :: s).length - (j + 1) := List.length_drop _ _
        cases hrest with
        | inl hr => rw [hr] at hdlen; omega
        | inr hr =>
          rw [hr] at hdlen
          simp [List.length_append] at hdlen
          omega
  show (match findGreatest (goodK (e ++ '.' :: s) (litRE s)) (e ++ '.' :: s).length with
    | some k => some ((e ++ '.' :: s).take k)
    | none => none) = some e
  rw [hfg]
  simp only [Option.some.injEq]
  exact List.take_left e ('.' :: s)

/-- A name containing no dot never matches a pattern of the modelled
fragment: the pattern template always demands a literal dot before the
parameter name.  (Claims use this only for `plainS` parameter names, where
the model agrees with Python.) -/
theorem match_param_name_no_dot {full p : SName} (h : '.' ∉ full) :
    match_param_name full p = none := by
  unfold match_param_name
  cases hpa : parseAtoms p with
  | none => rfl
  | some atoms =>
    have hfg : findGreatest (goodK full (compileRE atoms)) full.length = none := by
      rw [findGreatest_eq_none]
      intro j hj
      have hhd : ¬ ((full.drop j).head? = some '.') := by
        intro hh
        apply h
        refine List.drop_subset j full ?_
        rw [drop_eq_cons_of_head? hh]
        exact List.mem_cons_self _ _
      unfold goodK
      rw [decide_eq_false hhd]
      simp
    show (match findGreatest (goodK full (compileRE atoms)) full.length with
      | some k => some (full.take k)
      | none => none) = none
    rw [hfg]

/-! ### Python dictionaries as ordered association lists -/

/-- Lookup in a Python dict (association list, unique keys by construction). -/
def alookup {β : Type} (k : SName) : List (SName × β) → Option β
  | [] => none
  | (k', v) :: rest => if k = k' then some v else alookup k rest

/-- Python `d[k] = v` on a dict: update in place, or append a new entry. -/
def dictInsert {β : Type} (k : SName) (v : β) : List (SName × β) → List (SName × β)
  | [] => [(k, v)]
  | (k', v') :: rest => if k = k' then (k', v) :: rest else (k', v') :: dictInsert k v rest

/-- Python `d.pop(k, None)` on a dict: drop the entry with key `k`, if any. -/
def dictPop {β : Type} (k : SName) : List (SName × β) → List (SName × β)
  | [] => []
  | (k', v) :: rest => if k' = k then rest else (k', v) :: dictPop k rest

/-- Nested mapping: entity name → (parameter name → value). -/
abbrev Nested (V : Type) := List (SName × List (SName × V))

/-- Python `if e not in nested: nested[e] = \x7b\x7d` followed by `nested[e][p] = v`. -/
def nestedInsert {V : Type} (e p : SName) (v : V) : Nested V → Nested V
  | [] => [(e, [(p, v)])]
  | (e', inner) :: rest =>
    if e = e' then (e', dictInsert p v inner) :: rest
    else (e', inner) :: nestedInsert e p v rest

/-- The inner loop of the grouping functions: try every parameter name on one
key, inserting on each truthy match; the flag is Python's `matched`. -/
def nestParams {V : Type} (key : SName) (v : V) : List SName → Nested V → Nested V × Bool
  | [], acc => (acc, false)
  | p :: ps, acc =>
    match match_param_name key p with
    | some (c :: cs) => ((nestParams key v ps (nestedInsert (c :: cs) p v acc)).1, true)
    | _ => nestParams key v ps acc

/-- The outer loop shared by `get_nested_weight_mappings` and
`get_nested_mappings_from_state_dict`: process each `(key, value)` of the
flat mapping, recording unmatched keys when requested. -/
def nestGo {V : Type} (ps : List SName) (flag : Bool) :
    List (SName × V) → Nested V → List (SName × V) → Nested V × List (SName × V)
  | [], acc, un => (acc, un)
  | (k, v) :: rest, acc, un =>
    let st := nestParams k v ps acc
    nestGo ps flag rest st.1 (if flag && !st.2 then dictInsert k v un else un)

/-- Embedding of `get_nested_mappings_from_state_dict`.  The Python function returns the
nested mapping alone when `return_unmatched_params` is false; here both
components are always returned, the second being empty in that case (the
code never populates it). -/
def get_nested_mappings_from_state_dict {V : Type} (state_dict : List (SName × V))
    (params_to_nest : List SName) (return_unmatched_params : Bool) :
    Nested V × List (SName × V) :=
  nestGo params_to_nest return_unmatched_params state_dict [] []

/-- All values stored in a nested mapping, in order. -/
def nestedValsList {V : Type} (n : Nested V) : List V :=
  (n.map (fun ei => ei.2.map Prod.snd)).flatten

/-- Lookup of the value at an `(entity, parameter)` slot. -/
def slotLookup {V : Type} (n : Nested V) (e p : SName) : Option V :=
  (alookup e n).bind (alookup p)

theorem nestedValsList_nil {V : Type} : nestedValsList ([] : Nested V) = [] := rfl

theorem nestedValsList_cons {V : Type} (e : SName) (i : List (SName × V)) (n : Nested V) :
    nestedValsList ((e, i) :: n) = i.map Prod.snd ++ nestedValsList n := rfl

theorem alookup_dictInsert_self {β : Type} (k : SName) (v : β) (l : List (SName × β)) :
    alookup k (dictInsert k v l) = some v := by
  induction l with
  | nil => simp [dictInsert, alookup]
  | cons kv rest ih =>
    obtain ⟨k', v'⟩ := kv
    by_cases h : k = k'
    · subst h; simp [dictInsert, alookup]
    · simp [dictInsert, alookup, h, ih]

theorem alookup_dictInsert_ne {β : Type} {j k : SName} (h : j ≠ k) (v : β)
    (l : List (SName × β)) : alookup j (dictInsert k v l) = alookup j l := by
  induction l with
  | nil => simp [dictInsert, alookup, h]
  | cons kv rest ih =>
    obtain ⟨k', v'⟩ := kv
    by_cases hk : k = k'
    · subst hk
      simp [dictInsert, alookup, h, ih]
    · by_cases hj : j = k'
      · subst hj; simp [dictInsert, alookup, hk]
      · simp [dictInsert, alookup, hk, hj, ih]

theorem dictInsert_of_absent {β : Type} {k : SName} {l : List (SName × β)}
    (h : alookup k l = none) (v : β) : dictInsert k v l = l ++ [(k, v)] := by
  induction l with
  | nil => rfl
  | cons kv rest ih =>
    obtain ⟨k', v'⟩ := kv
    by_cases hk : k = k'
    · subst hk; simp [alookup] at h
    · simp only [alookup, if_neg hk] at h
      simp [dictInsert, hk, ih h]

theorem mem_keys_dictInsert {β : Type} {j k : SName} {v : β} {l : List (SName × β)} :
    j ∈ (dictInsert k v l).map Prod.fst ↔ j ∈ l.map Prod.fst ∨ j = k := by
  induction l with
  | nil =>
    show j ∈ [k] ↔ j ∈ ([] : List SName) ∨ j = k
    rw [List.mem_singleton]
    exact (or_iff_right (List.not_mem_nil j)).symm
  | cons kv rest ih =>
    obtain ⟨k', v'⟩ := kv
    by_cases hk : k = k'
    · subst hk
      rw [show dictInsert k v ((k, v') :: rest) = (k, v) :: rest from by simp [dictInsert]]
      simp only [List.map_cons, List.mem_cons]
      tauto
    · rw [show dictInsert k v ((k', v') :: rest) = (k', v') :: dictInsert k v rest from by
        simp [dictInsert, hk]]
      simp only [List.map_cons, List.mem_cons, ih]
      tauto

theorem slotLookup_nil {V : Type} (e p : SName) :
    slotLookup ([] : Nested V) e p = none := rfl

theorem alookup_cons_ne {β : Type} {j k : SName} (h : j ≠ k) (v : β) (l : List (SName × β)) :
    alookup j ((k, v) :: l) = alookup j l := by
  show (if j = k then some v else alookup j l) = alookup j l
  rw [if_neg h]

theorem slotLookup_cons_ne {V : Type} {e e' : SName} (h : e ≠ e') (inner : List (SName × V))
    (rest : Nested V) (p : SName) :
    slotLookup ((e', inner) :: rest) e p = slotLookup rest e p := by
  unfold slotLookup
  rw [alookup_cons_ne h]

theorem slotLookup_nestedInsert_self {V : Type} (e p : SName) (v : V) (n : Nested V) :
    slotLookup (nestedInsert e p v n) e p = some v := by
  induction n with
  | nil => simp [nestedInsert, slotLookup, alookup, alookup_dictInsert_self]
  | cons ei rest ih =>
    obtain ⟨e', inner⟩ := ei
    by_cases he : e = e'
    · subst he
      simp [nestedInsert, slotLookup, alookup, alookup_dictInsert_self]
    · simp only [nestedInsert, if_neg he]
      simpa [slotLookup, alookup, he] using ih

theorem slotLookup_nestedInsert_ne {V : Type} {e p e' p' : SName}
    (h : ¬(e' = e ∧ p' = p)) (v : V) (n : Nested V) :
    slotLookup (nestedInsert e p v n) e' p' = slotLookup n e' p' := by
  induction n with
  | nil =>
    by_cases he : e' = e
    · subst he
      have hp : p' ≠ p := fun hp => h ⟨rfl, hp⟩
      simp [nestedInsert, slotLookup, alookup, alookup_dictInsert_ne hp]
      simp [alookup, hp]
    · simp [nestedInsert, slotLookup, alookup, he]
  | cons ei rest ih =>
    obtain ⟨e'', inner⟩ := ei
    by_cases he : e = e''
    · subst he
      by_cases he' : e' = e
      · subst he'
        have hp : p' ≠ p := fun hp => h ⟨rfl, hp⟩
        simp [nestedInsert, slotLookup, alookup, alookup_dictInsert_ne hp]
      · simp [nestedInsert, slotLookup, alookup, he']
    · by_cases he' : e' = e''
      · subst he'
        simp [nestedInsert, slotLookup, alookup, he, Ne.symm he]
      · simp only [nestedInsert, if_neg he]
        simpa [slotLookup, alookup, he'] using ih

theorem nestedValsList_insert_fresh {V : Type} {n : Nested V} {e p : SName}
    (h : slotLookup n e p = none) (v : V) :
    (nestedValsList (nestedInsert e p v n)).Perm (v :: nestedValsList n) := by
  induction n with
  | nil => simp [nestedInsert, nestedValsList]
  | cons ei rest ih =>
    obtain ⟨e', inner⟩ := ei
    by_cases he : e = e'
    · subst he
      have hpl : alookup p inner = none := by
        simpa [slotLookup, alookup] using h
      rw [show nestedInsert e p v ((e, inner) :: rest) = (e, dictInsert p v inner) :: rest
        from by simp [nestedInsert]]
      simp only [nestedValsList_cons]
      rw [dictInsert_of_absent hpl, List.map_append]
      simp only [List.map_cons, List.map_nil, List.append_assoc]
      exact List.perm_middle
    · have hrest : slotLookup rest e p = none := by
        rw [slotLookup_cons_ne he] at h
        exact h
      simp only [nestedInsert, if_neg he, nestedValsList_cons]
      refine (List.Perm.append_left _ (ih hrest)).trans ?_
      exact List.perm_middle

theorem perm_cons_shift {α : Type} (A U R : List α) (v : α) :
    ((v :: A) ++ U ++ R).Perm (A ++ U ++ (v :: R)) := by
  simp only [List.cons_append]
  exact List.perm_middle.symm

theorem perm_append_snoc {α : Type} (A U R : List α) (v : α) :
    (A ++ (U ++ [v]) ++ R).Perm (A ++ U ++ (v :: R)) := by
  simp only [List.append_assoc, List.singleton_append]
  exact List.Perm.refl _

/-- The `matched` flag computed by the inner loop is exactly "some parameter
name matches truthily". -/
theorem nestParams_matched {V : Type} (key : SName) (v : V) (ps : List SName) :
    ∀ acc : Nested V,
      (nestParams key v ps acc).2 = ps.any (fun p => pyTruthy (match_param_name key p)) := by
  induction ps with
  | nil => intro acc; rfl
  | cons p ps ih =>
    intro acc
    cases hm : match_param_name key p with
    | none =>
      simp only [nestParams, hm]
      rw [ih]
      simp [List.any_cons, pyTruthy, hm]
    | some e =>
      cases e with
      | nil =>
        simp only [nestParams, hm]
        rw [ih]
        simp [List.any_cons, pyTruthy, hm]
      | cons c cs =>
        simp only [nestParams, hm]
        simp [List.any_cons, pyTruthy, hm]

theorem nestParams_all_unmatched {V : Type} {key : SName} (ps : List SName) (v : V) :
    ∀ acc : Nested V, (∀ p ∈ ps, pyTruthy (match_param_name key p) = false) →
      nestParams key v ps acc = (acc, false) := by
  induction ps with
  | nil => intro acc _; rfl
  | cons p ps ih =>
    intro acc h
    have hp := h p (List.mem_cons_self p ps)
    have hrest : ∀ q ∈ ps, pyTruthy (match_param_name key q) = false :=
      fun q hq => h q (List.mem_cons_of_mem p hq)
    cases hm : match_param_name key p with
    | none => simp only [nestParams, hm]; exact ih acc hrest
    | some e =>
      cases e with
      | nil => simp only [nestParams, hm]; exact ih acc hrest
      | cons c cs => rw [hm] at hp; exact absurd hp (by simp [pyTruthy])

/-- When at most one parameter name matches, the inner loop either leaves the
accumulator unchanged (nothing matched) or performs exactly one insertion. -/
theorem nestParams_step {V : Type} {key : SName} (ps : List SName) (v : V) :
    ∀ acc : Nested V,
      ps.countP (fun p => pyTruthy (match_param_name key p)) ≤ 1 →
      ((ps.any (fun p => pyTruthy (match_param_name key p)) = false ∧
          nestParams key v ps acc = (acc, false))
       ∨ (∃ p e, p ∈ ps ∧ match_param_name key p = some e ∧ e ≠ [] ∧
          (nestParams key v ps acc).1 = nestedInsert e p v acc)) := by
  induction ps with
  | nil => intro acc _; exact Or.inl ⟨rfl, rfl⟩
  | cons p ps ih =>
    intro acc hcount
    cases hm : match_param_name key p with
    | some e =>
      cases e with
      | cons c cs =>
        have htr : pyTruthy (match_param_name key p) = true := by rw [hm]; rfl
        rw [List.countP_cons] at hcount
        simp only [htr, if_true, eq_self_iff_true] at hcount
        have hzero : ps.countP (fun q => pyTruthy (match_param_name key q)) = 0 := by omega
        have hall : ∀ q ∈ ps, pyTruthy (match_param_name key q) = false := by
          intro q hq
          have := List.countP_eq_zero.mp hzero q hq
          simpa using this
        refine Or.inr ⟨p, c :: cs, List.mem_cons_self p ps, hm, by simp, ?_⟩
        simp only [nestParams, hm]
        rw [nestParams_all_unmatched ps v _ hall]
      | nil =>
        have hfa : pyTruthy (match_param_name key p) = false := by rw [hm]; rfl
        rw [List.countP_cons] at hcount
        simp only [hfa, if_false, Bool.false_eq_true, ite_false] at hcount
        rcases ih acc (by omega) with ⟨hany, heq⟩ | ⟨q, e', hq, hm', hne, heq⟩
        · refine Or.inl ⟨?_, ?_⟩
          · simp [List.any_cons, hfa, hany]
          · simp only [nestParams, hm]; exact heq
        · refine Or.inr ⟨q, e', List.mem_cons_of_mem p hq, hm', hne, ?_⟩
          simp only [nestParams, hm]; exact heq
    | none =>
      have hfa : pyTruthy (match_param_name key p) = false := by rw [hm]; rfl
      rw [List.countP_cons] at hcount
      simp only [hfa, if_false, Bool.false_eq_true, ite_false] at hcount
      rcases ih acc (by omega) with ⟨hany, heq⟩ | ⟨q, e', hq, hm', hne, heq⟩
      · refine Or.inl ⟨?_, ?_⟩
        · simp [List.any_cons, hfa, hany]
        · simp only [nestParams, hm]; exact heq
      · refine Or.inr ⟨q, e', List.mem_cons_of_mem p hq, hm', hne, ?_⟩
        simp only [nestParams, hm]; exact heq

theorem slotLookup_nestedInsert_pres {V : Type} {acc : Nested V} {e p : SName}
    (h : slotLookup acc e p ≠ none) (e' p' : SName) (v : V) :
    slotLookup (nestedInsert e' p' v acc) e p ≠ none := by
  by_cases hep : e = e' ∧ p = p'
  · obtain ⟨rfl, rfl⟩ := hep
    rw [slotLookup_nestedInsert_self]
    simp
  · rw [slotLookup_nestedInsert_ne hep]
    exact h

theorem slotLookup_nestParams_pres {V : Type} {key : SName} (ps : List SName) (v : V) :
    ∀ (acc : Nested V) {e p : SName}, slotLookup acc e p ≠ none →
      slotLookup (nestParams key v ps acc).1 e p ≠ none := by
  induction ps with
  | nil => intro acc e p h; exact h
  | cons q ps ih =>
    intro acc e p h
    cases hm : match_param_name key q with
    | none => simp only [nestParams, hm]; exact ih acc h
    | some w =>
      cases w with
      | nil => simp only [nestParams, hm]; exact ih acc h
      | cons c cs =>
        simp only [nestParams, hm]
        exact ih _ (slotLookup_nestedInsert_pres h _ _ _)

theorem slotLookup_nestParams_self {V : Type} {key : SName} (ps : List SName) (v : V) :
    ∀ (acc : Nested V) {p e : SName}, p ∈ ps → match_param_name key p = some e → e ≠ [] →
      slotLookup (nestParams key v ps acc).1 e p ≠ none := by
  induction ps with
  | nil => intro acc p e hp; exact absurd hp (List.not_mem_nil p)
  | cons q ps ih =>
    intro acc p e hp hm hne
    rcases List.mem_cons.mp hp with rfl | hp'
    · cases e with
      | nil => exact absurd rfl hne
      | cons c cs =>
        simp only [nestParams, hm]
        refine slotLookup_nestParams_pres ps v _ ?_
        rw [slotLookup_nestedInsert_self]
        simp
    · cases hmq : match_param_name key q with
      | none => simp only [nestParams, hmq]; exact ih acc hp' hm hne
      | some w =>
        cases w with
        | nil => simp only [nestParams, hmq]; exact ih acc hp' hm hne
        | cons c cs => simp only [nestParams, hmq]; exact ih _ hp' hm hne

theorem slotLookup_nestGo_pres {V : Type} (ps : List SName) (flag : Bool)
    (sd : List (SName × V)) :
    ∀ (acc : Nested V) (un : List (SName × V)) {e p : SName}, slotLookup acc e p ≠ none →
      slotLookup (nestGo ps flag sd acc un).1 e p ≠ none := by
  induction sd with
  | nil => intro acc un e p h; exact h
  | cons kv rest ih =>
    obtain ⟨k, v⟩ := kv
    intro acc un e p h
    simp only [nestGo]
    exact ih _ _ (slotLookup_nestParams_pres ps v acc h)

theorem slotLookup_nestGo_self {V : Type} (ps : List SName) (flag : Bool)
    (sd : List (SName × V)) :
    ∀ (acc : Nested V) (un : List (SName × V)) {k : SName} {v : V} {p e : SName},
      (k, v) ∈ sd → p ∈ ps → match_param_name k p = some e → e ≠ [] →
      slotLookup (nestGo ps flag sd acc un).1 e p ≠ none := by
  induction sd with
  | nil => intro acc un k v p e h; exact absurd h (List.not_mem_nil _)
  | cons kv rest ih =>
    intro acc un k v p e hkv hp hm hne
    obtain ⟨k', v'⟩ := kv
    rcases List.mem_cons.mp hkv with heq | hmem
    · cases heq
      simp only [nestGo]
      exact slotLookup_nestGo_pres ps flag rest _ _
        (slotLookup_nestParams_self ps v acc hp hm hne)
    · simp only [nestGo]
      exact ih _ _ hmem hp hm hne

/-- Key membership in the unmatched mapping produced by the outer loop. -/
theorem nestGo_un_keys {V : Type} (ps : List SName) (sd : List (SName × V)) :
    ∀ (acc : Nested V) (un : List (SName × V)) (j : SName),
      j ∈ (nestGo ps true sd acc un).2.map Prod.fst ↔
        j ∈ un.map Prod.fst ∨ (j ∈ sd.map Prod.fst ∧
          ps.any (fun p => pyTruthy (match_param_name j p)) = false) := by
  induction sd with
  | nil =>
    intro acc un j
    constructor
    · exact Or.inl
    · rintro (h | ⟨hmem, hf⟩)
      · exact h
      · exact absurd hmem (List.not_mem_nil j)
  | cons kv rest ih =>
    obtain ⟨k, v⟩ := kv
    intro acc un j
    simp only [nestGo]
    rw [nestParams_matched]
    cases hany : ps.any (fun p => pyTruthy (match_param_name k p)) with
    | true =>
      rw [show (if (true && !true) = true then dictInsert k v un else un) = un from rfl]
      rw [ih]
      simp only [List.map_cons, List.mem_cons]
      constructor
      · rintro (h | ⟨hmem, hf⟩)
        · exact Or.inl h
        · exact Or.inr ⟨Or.inr hmem, hf⟩
      · rintro (h | ⟨hjk | hmem, hf⟩)
        · exact Or.inl h
        · subst hjk; rw [hany] at hf; exact absurd hf (by simp)
        · exact Or.inr ⟨hmem, hf⟩
    | false =>
      rw [show (if (true && !false) = true then dictInsert k v un else un)
        = dictInsert k v un from rfl]
      rw [ih]
      simp only [List.map_cons, List.mem_cons, mem_keys_dictInsert]
      constructor
      · rintro ((h | rfl) | ⟨hmem, hf⟩)
        · exact Or.inl h
        · exact Or.inr ⟨Or.inl rfl, hany⟩
        · exact Or.inr ⟨Or.inr hmem, hf⟩
      · rintro (h | ⟨hjk | hmem, hf⟩)
        · exact Or.inl (Or.inl h)
        · subst hjk; exact Or.inl (Or.inr rfl)
        · exact Or.inr ⟨hmem, hf⟩

/-- Value conservation of the outer loop: under plain parameter names,
newline-free distinct keys, at most one match per key, and an accumulator
whose slots are disjoint from those of the remaining keys, the values of the
produced nested and unmatched mappings are a permutation of the input
values. -/
theorem nestGo_perm {V : Type} (ps : List SName) (hps : ∀ p ∈ ps, plainS p)
    (sd : List (SName × V)) :
    ∀ (acc : Nested V) (un : List (SName × V)),
      (∀ kk ∈ sd.map Prod.fst, '\n' ∉ kk) →
      (sd.map Prod.fst).Nodup →
      (∀ kk ∈ sd.map Prod.fst, ps.countP (fun p => pyTruthy (match_param_name kk p)) ≤ 1) →
      (∀ kk ∈ sd.map Prod.fst, ∀ p ∈ ps, ∀ e, match_param_name kk p = some e → e ≠ [] →
        slotLookup acc e p = none) →
      (∀ kk ∈ sd.map Prod.fst, alookup kk un = none) →
      (nestedValsList (nestGo ps true sd acc un).1 ++
        (nestGo ps true sd acc un).2.map Prod.snd).Perm
        (nestedValsList acc ++ un.map Prod.snd ++ sd.map Prod.snd) := by
  induction sd with
  | nil =>
    intro acc un _ _ _ _ _
    simp [nestGo]
  | cons kv rest ih =>
    obtain ⟨k, v⟩ := kv
    intro acc un hnl hnd hcount hslots hun
    have hknl : '\n' ∉ k := hnl k (List.mem_cons_self _ _)
    have hkcount := hcount k (List.mem_cons_self _ _)
    have hkfresh : alookup k un = none := hun k (List.mem_cons_self _ _)
    have hknotin : k ∉ rest.map Prod.fst := by
      have := hnd
      simp only [List.map_cons, List.nodup_cons] at this
      exact this.1
    have hndrest : (rest.map Prod.fst).Nodup := by
      have := hnd
      simp only [List.map_cons, List.nodup_cons] at this
      exact this.2
    simp only [nestGo]
    rcases nestParams_step ps v acc hkcount with ⟨hany, heq⟩ | ⟨p, e, hp, hm, hne, heq1⟩
    · -- key k matches nothing: it is appended to the unmatched mapping
      rw [heq]
      rw [show (if (true && !(acc, false).2) = true then dictInsert k v un else un)
        = dictInsert k v un from rfl]
      refine (ih acc (dictInsert k v un)
        (fun kk hk => hnl kk (List.mem_cons_of_mem _ hk))
        hndrest
        (fun kk hk => hcount kk (List.mem_cons_of_mem _ hk))
        (fun kk hk => hslots kk (List.mem_cons_of_mem _ hk))
        ?hfr).trans ?_
      case hfr =>
        intro kk hk
        have hne : kk ≠ k := fun hkk => hknotin (hkk ▸ hk)
        rw [alookup_dictInsert_ne hne]
        exact hun kk (List.mem_cons_of_mem _ hk)
      rw [dictInsert_of_absent hkfresh, List.map_append]
      simp only [List.map_cons, List.map_nil]
      exact perm_append_snoc _ _ _ _
    · -- key k matches exactly the slot (e, p)
      have hplainp : plainS p := hps p hp
      have hslotk : slotLookup acc e p = none :=
        hslots k (List.mem_cons_self _ _) p hp e hm hne
      have hany : ps.any (fun q => pyTruthy (match_param_name k q)) = true := by
        refine List.any_eq_true.mpr ⟨p, hp, ?_⟩
        rw [hm]
        cases e with
        | nil => exact absurd rfl hne
        | cons c cs => rfl
      rw [nestParams_matched, hany]
      rw [show (if (true && !true) = true then dictInsert k v un else un) = un from rfl]
      rw [heq1]
      refine (ih (nestedInsert e p v acc) un
        (fun kk hk => hnl kk (List.mem_cons_of_mem _ hk))
        hndrest
        (fun kk hk => hcount kk (List.mem_cons_of_mem _ hk))
        ?hsl
        (fun kk hk => hun kk (List.mem_cons_of_mem _ hk))).trans ?_
      case hsl =>
        intro kk hk q hq e' hm' hne'
        by_cases hcoll : e' = e ∧ q = p
        · obtain ⟨rfl, rfl⟩ := hcoll
          exfalso
          have hkknl : '\n' ∉ kk := hnl kk (List.mem_cons_of_mem _ hk)
          have h1 : kk = e' ++ '.' :: q := (match_param_name_plain (hps q hq) hkknl).mp hm'
          have h2 : k = e' ++ '.' :: q := (match_param_name_plain (hps q hq) hknl).mp hm
          exact hknotin ((h1.trans h2.symm) ▸ hk)
        · rw [slotLookup_nestedInsert_ne hcoll]
          exact hslots kk (List.mem_cons_of_mem _ hk) q hq e' hm' hne'
      have hvals := nestedValsList_insert_fresh hslotk v
      refine (List.Perm.append_right _ (List.Perm.append_right _ hvals)).trans ?_
      simp only [List.map_cons]
      exact perm_cons_shift _ _ _ _

-- sanity checks on concrete inputs
example : match_param_name "layer.weight.bitmask".toList "bitmask".toList
    = some "layer.weight".toList := by decide
example : match_param_name "a.b.c".toList "b.c".toList = some "a".toList := by decide
example : match_param_name "bitmask".toList "bitmask".toList = none := by decide
example : match_param_name ".bitmask".toList "bitmask".toList = some [] := by decide
example : match_param_name "x.aaa".toList "a*".toList = some "x".toList := by decide
example : match_param_name "x.w\n".toList "w".toList = some "x".toList := by decide
example : match_param_name "a\nb.w".toList "w".toList = none := by decide
example : match_param_name (merge_names "x".toList "a*".toList) "a*".toList = none := by
  decide

/-! ### Claim C1: partition and value conservation of the grouping loop -/

/-- C1 (as stated) is false: a flat name matching two configured suffixes has
its value inserted under two slots, so the multiset union of nested and
unmatched values does not equal the input values.  Here `"a.b.c"` matches
both suffixes `"c"` and `"b.c"`, and its value is duplicated. -/
theorem c1_counterexample :
    ¬ ((nestedValsList
        (get_nested_mappings_from_state_dict
          [("a.b.c".toList, (0 : Nat))] ["c".toList, "b.c".toList] true).1 ++
      (get_nested_mappings_from_state_dict
          [("a.b.c".toList, (0 : Nat))] ["c".toList, "b.c".toList] true).2.map Prod.snd).Perm
      ([("a.b.c".toList, (0 : Nat))].map Prod.snd)) := by
  decide

/-- C1, amended: with `return_unmatched` set, every input name is either
matched -- and then each of its truthily-matching `(entity, suffix)` slots
is present in the nested mapping, possibly several -- or appears as a key
of the unmatched mapping, never both, with no further conditions; and when
additionally the suffixes are free of regex metacharacters, the keys are
distinct and newline-free, and each name matches at most one suffix, the
nested values together with the unmatched values are a permutation of the
input values. -/
theorem c1_grouping_partition {V : Type} (sd : List (SName × V)) (ps : List SName)
    (n : Nested V) (u : List (SName × V))
    (hout : get_nested_mappings_from_state_dict sd ps true = (n, u)) :
    (∀ j : SName, j ∈ u.map Prod.fst ↔
      (j ∈ sd.map Prod.fst ∧ ps.any (fun p => pyTruthy (match_param_name j p)) = false)) ∧
    (∀ k v, (k, v) ∈ sd → ∀ p ∈ ps, ∀ e, match_param_name k p = some e → e ≠ [] →
      slotLookup n e p ≠ none) ∧
    ((sd.map Prod.fst).Nodup →
      (∀ k ∈ sd.map Prod.fst, '\n' ∉ k) →
      (∀ p ∈ ps, plainS p) →
      (∀ k ∈ sd.map Prod.fst,
        ps.countP (fun p => pyTruthy (match_param_name k p)) ≤ 1) →
      (nestedValsList n ++ u.map Prod.snd).Perm (sd.map Prod.snd)) := by
  have hout' : nestGo ps true sd [] [] = (n, u) := hout
  refine ⟨?_, ?_, ?_⟩
  · intro j
    have h2 := nestGo_un_keys ps sd [] [] j
    rw [hout'] at h2
    rw [h2]
    constructor
    · rintro (h | h)
      · exact absurd h (List.not_mem_nil j)
      · exact h
    · exact Or.inr
  · intro k v hkv p hp e hm hne
    have h3 := slotLookup_nestGo_self ps true sd [] [] hkv hp hm hne
    rw [hout'] at h3
    exact h3
  · intro hnd hnl hps honce
    have h1 := nestGo_perm ps hps sd [] [] hnl hnd honce
      (fun kk _ p _ e _ _ => rfl) (fun kk _ => rfl)
    rw [hout'] at h1
    simpa using h1

/-- Witness for C1's amended theorem at a concrete state dict, exercising
the conditional value-conservation clause. -/
theorem c1_witness :
    (nestedValsList [("layer".toList, [("weight_scale".toList, (10 : Nat))])] ++
      ([("layer.weight".toList, (20 : Nat))].map Prod.snd)).Perm
      ([("layer.weight_scale".toList, (10 : Nat)),
        ("layer.weight".toList, (20 : Nat))].map Prod.snd) :=
  (c1_grouping_partition
    [("layer.weight_scale".toList, (10 : Nat)), ("layer.weight".toList, (20 : Nat))]
    ["weight_scale".toList]
    [("layer".toList, [("weight_scale".toList, (10 : Nat))])]
    [("layer.weight".toList, (20 : Nat))]
    (by decide)).2.2 (by decide) (by decide) (by decide) (by decide)

/-! ### Claim C2: match is merge's left inverse -/

/-- C2 (as stated, for every suffix string) is false: when the suffix
contains regex metacharacters it is interpreted as a pattern, and the
round-trip fails. -/
theorem c2_counterexample :
    match_param_name (merge_names "x".toList "a*".toList) "a*".toList
      ≠ some "x".toList := by
  decide

/-- C2, amended: for non-empty newline-free entity names and suffixes free
of regex metacharacters, `match_param_name` is `merge_names`'s left
inverse. -/
theorem c2_match_merge_roundtrip {e s : SName} (_he : e ≠ []) (hnl : '\n' ∉ e)
    (hs : plainS s) : match_param_name (merge_names e s) s = some e :=
  match_merge_plain hs hnl

/-- Witness for C2's amended theorem. -/
theorem c2_witness :
    match_param_name (merge_names "layer".toList "weight_scale".toList)
      "weight_scale".toList = some "layer".toList :=
  c2_match_merge_roundtrip (by decide) (by decide) (by decide)

/-! ### Claim C3: match succeeds exactly on literal dot-suffix names -/

/-- C3 (as stated) is false: with the suffix `"a*"` (a regex pattern, not
matched literally) the match succeeds on `"x.aaa"`, which does not end with
the literal string `".a*"`. -/
theorem c3_counterexample :
    match_param_name "x.aaa".toList "a*".toList = some "x".toList ∧
      "x.aaa".toList ≠ "x".toList ++ '.' :: "a*".toList := by
  constructor
  · decide
  · decide

/-- C3, amended: for suffixes free of regex metacharacters and full names
free of newlines, the match succeeds with prefix `p` exactly when the full
name is `p ++ "." ++ suffix`; the suffix is then compared literally. -/
theorem c3_match_literal {full s p : SName} (hs : plainS s) (hnl : '\n' ∉ full) :
    match_param_name full s = some p ↔ full = p ++ '.' :: s :=
  match_param_name_plain hs hnl

/-- Witness for C3's amended theorem. -/
theorem c3_witness :
    match_param_name "layer.weight.bitmask".toList "bitmask".toList
      = some "layer.weight".toList :=
  (c3_match_literal (by decide) (by decide)).mpr (by decide)

/-! ### Claim C7: empty-entity and bare-suffix names -/

/-- C7 (as stated) is false: a name `"." ++ s` can still be inserted into
the nested mapping through a different configured suffix.  With suffixes
`["c", "b.c"]` and the name `".b.c"` (which is `"." ++ "b.c"`), the suffix
`"c"` matches with entity `".b"`, so the name is matched and the unmatched
mapping stays empty. -/
theorem c7_counterexample :
    (get_nested_mappings_from_state_dict [(".b.c".toList, (0 : Nat))]
        ["c".toList, "b.c".toList] true).2 = [] ∧
    slotLookup (get_nested_mappings_from_state_dict [(".b.c".toList, (0 : Nat))]
        ["c".toList, "b.c".toList] true).1 ".b".toList "c".toList = some 0 := by
  constructor
  · decide
  · decide

/-- C7, amended, for suffix sets free of regex metacharacters (the region
where the regex model is exact): a name `"." ++ s` never matches the suffix
`s` itself (the empty entity is falsy), and a dotless bare name matches no
metacharacter-free suffix (the pattern always demands a literal dot);
whenever no other configured suffix matches either, such names land in the
unmatched mapping. -/
theorem c7_empty_entity_unmatched {V : Type} (s : SName) (sd : List (SName × V))
    (ps : List SName) (hs : plainS s) (hps : ∀ p ∈ ps, plainS p)
    (hother : ∀ p ∈ ps, p ≠ s → pyTruthy (match_param_name ('.' :: s) p) = false) :
    (match_param_name ('.' :: s) s = some [] ∧
      pyTruthy (match_param_name ('.' :: s) s) = false) ∧
    ('.' :: s ∈ sd.map Prod.fst →
      '.' :: s ∈ (get_nested_mappings_from_state_dict sd ps true).2.map Prod.fst) ∧
    ('.' ∉ s → (∀ p : SName, plainS p → match_param_name s p = none) ∧
      (s ∈ sd.map Prod.fst →
        s ∈ (get_nested_mappings_from_state_dict sd ps true).2.map Prod.fst)) := by
  have hm0 : match_param_name ('.' :: s) s = some [] :=
    match_merge_plain hs (List.not_mem_nil '\n')
  have hall : ∀ p ∈ ps, pyTruthy (match_param_name ('.' :: s) p) = false := by
    intro p hp
    by_cases hpe : p = s
    · subst hpe; rw [hm0]; rfl
    · exact hother p hp hpe
  refine ⟨⟨hm0, by rw [hm0]; rfl⟩, ?_, ?_⟩
  · intro hmem
    refine (nestGo_un_keys ps sd [] [] ('.' :: s)).mpr (Or.inr ⟨hmem, ?_⟩)
    rw [List.any_eq_false]
    intro p hp
    rw [hall p hp]
    simp
  · intro hdot
    have hnone : ∀ p : SName, plainS p → match_param_name s p = none :=
      fun p _ => match_param_name_no_dot hdot
    refine ⟨hnone, fun hmem => ?_⟩
    refine (nestGo_un_keys ps sd [] [] s).mpr (Or.inr ⟨hmem, ?_⟩)
    rw [List.any_eq_false]
    intro p hp
    rw [hnone p (hps p hp)]
    simp [pyTruthy]

/-- Witness for C7's amended theorem. -/
theorem c7_witness :
    "bitmask".toList
      ∈ (get_nested_mappings_from_state_dict [("bitmask".toList, (3 : Nat))]
          ["bitmask".toList] true).2.map Prod.fst :=
  ((c7_empty_entity_unmatched "bitmask".toList [("bitmask".toList, (3 : Nat))]
      ["bitmask".toList] (by decide) (by decide)
      (fun p hp hne => by
        rcases List.mem_singleton.mp hp with rfl
        exact absurd rfl hne)).2.2
    (by decide)).2 (by decide)

/-! ### HeaderReader and LocationResolver -/

inductive StErr where
  | malformedHeader
  | malformedIndex
  | checkpointNotFound
deriving DecidableEq

instance {E A : Type} [DecidableEq E] [DecidableEq A] : DecidableEq (Except E A) :=
  fun a b =>
    match a, b with
    | Except.error e, Except.error f =>
      if h : e = f then isTrue (by rw [h]) else isFalse (fun hh => h (Except.error.inj hh))
    | Except.ok x, Except.ok y =>
      if h : x = y then isTrue (by rw [h]) else isFalse (fun hh => h (Except.ok.inj hh))
    | Except.error _, Except.ok _ => isFalse (fun hh => Except.noConfusion hh)
    | Except.ok _, Except.error _ => isFalse (fun hh => Except.noConfusion hh)

/-- The unsigned integer denoted by a little-endian byte list. -/
def leU64 (bs : List Nat) : Nat := bs.foldr (fun b acc => b + 256 * acc) 0

/-- The `w`-byte little-endian encoding of `n`. -/
def encodeLE : Nat → Nat → List Nat
  | 0, _ => []
  | w + 1, n => (n % 256) :: encodeLE w (n / 256)

/-- Embedding of `get_safetensors_header`: `struct.unpack` on `f.read(8)` reads the
8-byte little-endian header length `L` (failing on a shorter file), then the
next `L` bytes are decoded as JSON.  Files are byte lists; JSON decoding is
abstracted by the parameter `dec`, which returns the decoded header as an
ordered name-to-metadata mapping, or `none` on invalid JSON.  Both failure
modes surface as `malformedHeader`. -/
def get_safetensors_header {J : Type} (file : List Nat)
    (dec : List Nat → Option (List (SName × J))) : Except StErr (List (SName × J)) :=
  if file.length < 8 then Except.error StErr.malformedHeader
  else
    match dec ((file.drop 8).take (leU64 (file.take 8))) with
    | some h => Except.ok h
    | none => Except.error StErr.malformedHeader

def SAFE_WEIGHTS_NAME : SName := "model.safetensors".toList

def SAFE_WEIGHTS_INDEX_NAME : SName := "model.safetensors.index.json".toList

def METADATA_KEY : SName := "__metadata__".toList

/-- POSIX `os.path.join` for two components, as used by the resolver. -/
def pathJoin (a b : SName) : SName :=
  if b.head? = some '/' then b
  else if a = [] then b
  else if a.getLast? = some '/' then a ++ b
  else a ++ '/' :: b

/-- Embedding of `get_weight_mappings`.  The filesystem is abstracted as a partial map
from paths to file bytes (`os.path.isfile` / `os.path.exists` hold exactly
where it is defined); `decH` abstracts JSON decoding of a safetensors
header; `decI` abstracts JSON decoding of an index file together with the
extraction of its `weight_map` field (`none` when the JSON is invalid or
the field is missing, both `malformedIndex`). -/
def get_weight_mappings {J : Type} (fs : SName → Option (List Nat))
    (decH : List Nat → Option (List (SName × J)))
    (decI : List Nat → Option (List (SName × SName)))
    (path_to_model_or_tensors : SName) : Except StErr (List (SName × SName)) :=
  match fs path_to_model_or_tensors with
  | some bytes =>
    match get_safetensors_header bytes decH with
    | Except.error err => Except.error err
    | Except.ok header =>
      Except.ok (dictPop METADATA_KEY
        (header.map (fun kv => (kv.1, path_to_model_or_tensors))))
  | none =>
    match fs (pathJoin path_to_model_or_tensors SAFE_WEIGHTS_NAME) with
    | some bytes =>
      match get_safetensors_header bytes decH with
      | Except.error err => Except.error err
      | Except.ok header =>
        Except.ok ((dictPop METADATA_KEY
            (header.map (fun kv => (kv.1, SAFE_WEIGHTS_NAME)))).map
          (fun kv => (kv.1, pathJoin path_to_model_or_tensors kv.2)))
    | none =>
      match fs (pathJoin path_to_model_or_tensors SAFE_WEIGHTS_INDEX_NAME) with
      | some ibytes =>
        match decI ibytes with
        | some wm =>
          Except.ok (wm.map (fun kv => (kv.1, pathJoin path_to_model_or_tensors kv.2)))
        | none => Except.error StErr.malformedIndex
      | none => Except.error StErr.checkpointNotFound

/-- Embedding of `get_nested_weight_mappings`: resolve weight locations, then run the
same per-key grouping loop as `get_nested_mappings_from_state_dict`. -/
def get_nested_weight_mappings {J : Type} (fs : SName → Option (List Nat))
    (decH : List Nat → Option (List (SName × J)))
    (decI : List Nat → Option (List (SName × SName)))
    (model_path : SName) (params_to_nest : List SName)
    (return_unmatched_params : Bool) :
    Except StErr (Nested SName × List (SName × SName)) :=
  match get_weight_mappings fs decH decI model_path with
  | Except.error err => Except.error err
  | Except.ok wm => Except.ok (nestGo params_to_nest return_unmatched_params wm [] [])

theorem length_encodeLE (w : Nat) : ∀ n : Nat, (encodeLE w n).length = w := by
  induction w with
  | zero => intro n; rfl
  | succ w ih =>
    intro n
    show (encodeLE (w + 1) n).length = w + 1
    rw [show encodeLE (w + 1) n = (n % 256) :: encodeLE w (n / 256) from rfl]
    simp [ih]

theorem leU64_encodeLE (w : Nat) : ∀ n : Nat, n < 256 ^ w → leU64 (encodeLE w n) = n := by
  induction w with
  | zero =>
    intro n h
    have : n = 0 := by simpa using h
    subst this
    rfl
  | succ w ih =>
    intro n h
    rw [show encodeLE (w + 1) n = (n % 256) :: encodeLE w (n / 256) from rfl]
    rw [show leU64 ((n % 256) :: encodeLE w (n / 256))
      = n % 256 + 256 * leU64 (encodeLE w (n / 256)) from rfl]
    rw [ih (n / 256) ?hlt]
    · exact Nat.mod_add_div n 256
    case hlt =>
      rw [Nat.div_lt_iff_lt_mul (by omega : 0 < 256)]
      calc n < 256 ^ (w + 1) := h
        _ = 256 ^ w * 256 := by rw [Nat.pow_succ]

theorem dictPop_map_val {β γ : Type} (m : SName) (g : SName → β → γ) :
    ∀ l : List (SName × β),
      (dictPop m l).map (fun kv => (kv.1, g kv.1 kv.2)) =
        dictPop m (l.map (fun kv => (kv.1, g kv.1 kv.2))) := by
  intro l
  induction l with
  | nil => rfl
  | cons kv rest ih =>
    obtain ⟨k, v⟩ := kv
    by_cases hk : k = m
    · subst hk
      simp [dictPop]
    · simp [dictPop, hk, ih]

theorem keys_map_val {β γ : Type} (g : SName → β → γ) (l : List (SName × β)) :
    (l.map (fun kv => (kv.1, g kv.1 kv.2))).map Prod.fst = l.map Prod.fst := by
  induction l with
  | nil => rfl
  | cons kv rest ih => simp [ih]

theorem not_mem_keys_dictPop {β : Type} {l : List (SName × β)} (k : SName)
    (h : (l.map Prod.fst).Nodup) : k ∉ (dictPop k l).map Prod.fst := by
  induction l with
  | nil => exact List.not_mem_nil k
  | cons kv rest ih =>
    obtain ⟨k', v⟩ := kv
    simp only [List.map_cons, List.nodup_cons] at h
    by_cases hk : k' = k
    · subst hk
      rw [show dictPop k' ((k', v) :: rest) = rest from by simp [dictPop]]
      intro hmem
      exact h.1 hmem
    · rw [show dictPop k ((k', v) :: rest) = (k', v) :: dictPop k rest from by
        simp [dictPop, hk]]
      simp only [List.map_cons, List.mem_cons]
      rintro (rfl | hmem)
      · exact hk rfl
      · exact ih h.2 hmem

theorem gwm_file {J : Type} (fs : SName → Option (List Nat))
    (decH : List Nat → Option (List (SName × J)))
    (decI : List Nat → Option (List (SName × SName)))
    {path : SName} {bytes : List Nat} (hfile : fs path = some bytes) :
    get_weight_mappings fs decH decI path =
      match get_safetensors_header bytes decH with
      | Except.error err => Except.error err
      | Except.ok header =>
        Except.ok (dictPop METADATA_KEY (header.map (fun kv => (kv.1, path)))) := by
  unfold get_weight_mappings
  rw [hfile]

theorem gwm_canonical {J : Type} (fs : SName → Option (List Nat))
    (decH : List Nat → Option (List (SName × J)))
    (decI : List Nat → Option (List (SName × SName)))
    {path : SName} {bytes : List Nat}
    (hdir : fs path = none)
    (hsf : fs (pathJoin path SAFE_WEIGHTS_NAME) = some bytes) :
    get_weight_mappings fs decH decI path =
      match get_safetensors_header bytes decH with
      | Except.error err => Except.error err
      | Except.ok header =>
        Except.ok ((dictPop METADATA_KEY
            (header.map (fun kv => (kv.1, SAFE_WEIGHTS_NAME)))).map
          (fun kv => (kv.1, pathJoin path kv.2))) := by
  unfold get_weight_mappings
  rw [hdir, hsf]

theorem gwm_index {J : Type} (fs : SName → Option (List Nat))
    (decH : List Nat → Option (List (SName × J)))
    (decI : List Nat → Option (List (SName × SName)))
    {path : SName} {ib : List Nat}
    (hdir : fs path = none)
    (hsf : fs (pathJoin path SAFE_WEIGHTS_NAME) = none)
    (hidx : fs (pathJoin path SAFE_WEIGHTS_INDEX_NAME) = some ib) :
    get_weight_mappings fs decH decI path =
      match decI ib with
      | some wm =>
        Except.ok (wm.map (fun kv => (kv.1, pathJoin path kv.2)))
      | none => Except.error StErr.malformedIndex := by
  unfold get_weight_mappings
  rw [hdir, hsf, hidx]

theorem gwm_notfound {J : Type} (fs : SName → Option (List Nat))
    (decH : List Nat → Option (List (SName × J)))
    (decI : List Nat → Option (List (SName × SName)))
    {path : SName}
    (hdir : fs path = none)
    (hsf : fs (pathJoin path SAFE_WEIGHTS_NAME) = none)
    (hidx : fs (pathJoin path SAFE_WEIGHTS_INDEX_NAME) = none) :
    get_weight_mappings fs decH decI path = Except.error StErr.checkpointNotFound := by
  unfold get_weight_mappings
  rw [hdir, hsf, hidx]

/-! ### Claim C4: index-based resolution -/

/-- C4 (as stated) fails when the directory also contains the canonical
single-shard file: that file takes precedence and the index's `weight_map`
is ignored, so the key set is the header's keys, not the weight_map's. -/
theorem c4_counterexample :
    get_weight_mappings
      (fun p => if p = "d".toList then none
        else if p = "d/model.safetensors".toList then some [0, 0, 0, 0, 0, 0, 0, 0]
        else if p = "d/model.safetensors.index.json".toList then some [1] else none)
      (fun bs => if bs = [] then some [("a".toList, ())] else none)
      (fun bs => if bs = [1] then some [("b".toList, "f".toList)] else none)
      "d".toList
      = Except.ok [("a".toList, "d/model.safetensors".toList)] ∧
    "b".toList ∉ [("a".toList, "d/model.safetensors".toList)].map Prod.fst := by
  constructor
  · decide
  · decide

/-- C4, amended: for a directory containing an index file and no canonical
single-shard file, the resolved mapping has exactly the weight_map's keys,
each mapped to the directory path joined with its relative filename. -/
theorem c4_index_resolution {J : Type} (fs : SName → Option (List Nat))
    (decH : List Nat → Option (List (SName × J)))
    (decI : List Nat → Option (List (SName × SName)))
    (path : SName) (ib : List Nat) (wm : List (SName × SName))
    (hdir : fs path = none)
    (hsf : fs (pathJoin path SAFE_WEIGHTS_NAME) = none)
    (hidx : fs (pathJoin path SAFE_WEIGHTS_INDEX_NAME) = some ib)
    (hwm : decI ib = some wm) :
    get_weight_mappings fs decH decI path
      = Except.ok (wm.map (fun kv => (kv.1, pathJoin path kv.2))) ∧
    (wm.map (fun kv => (kv.1, pathJoin path kv.2))).map Prod.fst = wm.map Prod.fst := by
  constructor
  · rw [gwm_index fs decH decI hdir hsf hidx, hwm]
  · exact keys_map_val (fun _ v => pathJoin path v) wm

/-- Witness for C4's amended theorem. -/
theorem c4_witness :
    get_weight_mappings
      (fun p => if p = "d/model.safetensors.index.json".toList then some [1] else none)
      (fun _ => (none : Option (List (SName × Unit))))
      (fun bs => if bs = [1] then some [("b".toList, "f".toList)] else none)
      "d".toList
      = Except.ok [("b".toList, "d/f".toList)] :=
  (c4_index_resolution _ _ _ "d".toList [1] [("b".toList, "f".toList)]
    (by decide) (by decide) (by decide) (by decide)).1

/-! ### Claim C5: single file and canonical directory agree -/

/-- C5: resolving the file `dir/model.safetensors` directly and resolving
the directory `dir` containing it produce identical weight mappings
(also when the header is malformed: both fail identically). -/
theorem c5_single_file_dir_equiv {J : Type} (fs : SName → Option (List Nat))
    (decH : List Nat → Option (List (SName × J)))
    (decI : List Nat → Option (List (SName × SName)))
    (dir : SName) (bytes : List Nat)
    (hdir : fs dir = none)
    (hfile : fs (pathJoin dir SAFE_WEIGHTS_NAME) = some bytes) :
    get_weight_mappings fs decH decI (pathJoin dir SAFE_WEIGHTS_NAME)
      = get_weight_mappings fs decH decI dir := by
  rw [gwm_file fs decH decI hfile, gwm_canonical fs decH decI hdir hfile]
  cases get_safetensors_header bytes decH with
  | error err => rfl
  | ok header =>
    show Except.ok _ = Except.ok _
    rw [dictPop_map_val METADATA_KEY (fun _ v => pathJoin dir v)
      (header.map (fun kv => (kv.1, SAFE_WEIGHTS_NAME))), List.map_map]
    rfl

/-- Witness for C5 at a concrete one-entry header. -/
theorem c5_witness :
    get_weight_mappings
      (fun p => if p = "d/model.safetensors".toList
        then some [0, 0, 0, 0, 0, 0, 0, 0] else none)
      (fun bs => if bs = [] then some [("a".toList, ())] else none)
      (fun _ => (none : Option (List (SName × SName))))
      "d/model.safetensors".toList
      = get_weight_mappings
        (fun p => if p = "d/model.safetensors".toList
          then some [0, 0, 0, 0, 0, 0, 0, 0] else none)
        (fun bs => if bs = [] then some [("a".toList, ())] else none)
        (fun _ => (none : Option (List (SName × SName))))
        "d".toList :=
  c5_single_file_dir_equiv _ _ _ "d".toList [0, 0, 0, 0, 0, 0, 0, 0]
    (by decide) (by decide)

/-! ### Claim C6: the reserved key -/

/-- C6 (as stated) is false for the index branch: the index's `weight_map`
keys are used verbatim, so a weight_map containing `"__metadata__"` puts it
into the result. -/
theorem c6_counterexample :
    get_weight_mappings
      (fun p => if p = "d/model.safetensors.index.json".toList then some [1] else none)
      (fun _ => (none : Option (List (SName × Unit))))
      (fun bs => if bs = [1] then some [(METADATA_KEY, "f".toList)] else none)
      "d".toList
      = Except.ok [(METADATA_KEY, "d/f".toList)] ∧
    METADATA_KEY ∈ [(METADATA_KEY, "d/f".toList)].map Prod.fst := by
  constructor
  · decide
  · decide

/-- C6, amended: in the single-file and canonical-directory branches the
reserved key `"__metadata__"` is popped and never appears in the result
(the header's keys being unique); in the index branch the weight_map keys
are used verbatim, so the reserved key appears exactly when the weight_map
contains it. -/
theorem c6_metadata_excluded {J : Type} (fs : SName → Option (List Nat))
    (decH : List Nat → Option (List (SName × J)))
    (decI : List Nat → Option (List (SName × SName))) (path : SName) :
    (∀ bytes header m, fs path = some bytes →
      get_safetensors_header bytes decH = Except.ok header →
      (header.map Prod.fst).Nodup →
      get_weight_mappings fs decH decI path = Except.ok m →
      METADATA_KEY ∉ m.map Prod.fst) ∧
    (∀ bytes header m, fs path = none →
      fs (pathJoin path SAFE_WEIGHTS_NAME) = some bytes →
      get_safetensors_header bytes decH = Except.ok header →
      (header.map Prod.fst).Nodup →
      get_weight_mappings fs decH decI path = Except.ok m →
      METADATA_KEY ∉ m.map Prod.fst) ∧
    (∀ ib wm, fs path = none →
      fs (pathJoin path SAFE_WEIGHTS_NAME) = none →
      fs (pathJoin path SAFE_WEIGHTS_INDEX_NAME) = some ib →
      decI ib = some wm →
      get_weight_mappings fs decH decI path
          = Except.ok (wm.map (fun kv => (kv.1, pathJoin path kv.2))) ∧
        (wm.map (fun kv => (kv.1, pathJoin path kv.2))).map Prod.fst = wm.map Prod.fst) := by
  refine ⟨?_, ?_, ?_⟩
  · intro bytes header m hfile hh hnd hm
    have hres : get_weight_mappings fs decH decI path
        = Except.ok (dictPop METADATA_KEY (header.map (fun kv => (kv.1, path)))) := by
      rw [gwm_file fs decH decI hfile, hh]
    rw [hres] at hm
    injection hm with hm
    subst hm
    refine not_mem_keys_dictPop METADATA_KEY ?_
    rw [keys_map_val (fun _ _ => path) header]
    exact hnd
  · intro bytes header m hdir hsf hh hnd hm
    have hres : get_weight_mappings fs decH decI path
        = Except.ok ((dictPop METADATA_KEY
            (header.map (fun kv => (kv.1, SAFE_WEIGHTS_NAME)))).map
          (fun kv => (kv.1, pathJoin path kv.2))) := by
      rw [gwm_canonical fs decH decI hdir hsf, hh]
    rw [hres] at hm
    injection hm with hm
    subst hm
    rw [keys_map_val (fun _ v => pathJoin path v)]
    refine not_mem_keys_dictPop METADATA_KEY ?_
    rw [keys_map_val (fun _ _ => SAFE_WEIGHTS_NAME) header]
    exact hnd
  · intro ib wm hdir hsf hidx hwm
    constructor
    · rw [gwm_index fs decH decI hdir hsf hidx, hwm]
    · exact keys_map_val (fun _ v => pathJoin path v) wm

/-- Witness for C6's amended theorem: a header containing the reserved key
resolves to a mapping without it. -/
theorem c6_witness :
    METADATA_KEY ∉ [("a".toList, "f".toList)].map Prod.fst :=
  (c6_metadata_excluded
    (fun p => if p = "f".toList then some [0, 0, 0, 0, 0, 0, 0, 0] else none)
    (fun bs => if bs = []
      then some [(METADATA_KEY, ()), ("a".toList, ())] else none)
    (fun _ => (none : Option (List (SName × SName))))
    "f".toList).1
    [0, 0, 0, 0, 0, 0, 0, 0] [(METADATA_KEY, ()), ("a".toList, ())]
    [("a".toList, "f".toList)]
    (by decide) (by decide) (by decide) (by decide)

/-! ### Claim C8: missing checkpoint -/

/-- C8: a directory with neither the canonical single-shard file nor the
index file resolves to the `CheckpointNotFound` error, with no mapping. -/
theorem c8_missing_checkpoint {J : Type} (fs : SName → Option (List Nat))
    (decH : List Nat → Option (List (SName × J)))
    (decI : List Nat → Option (List (SName × SName)))
    (path : SName)
    (hdir : fs path = none)
    (hsf : fs (pathJoin path SAFE_WEIGHTS_NAME) = none)
    (hidx : fs (pathJoin path SAFE_WEIGHTS_INDEX_NAME) = none) :
    get_weight_mappings fs decH decI path = Except.error StErr.checkpointNotFound :=
  gwm_notfound fs decH decI hdir hsf hidx

/-- Witness for C8 on an empty filesystem. -/
theorem c8_witness :
    get_weight_mappings (fun _ => none)
      (fun _ => (none : Option (List (SName × Unit))))
      (fun _ => (none : Option (List (SName × SName))))
      "d".toList
      = Except.error StErr.checkpointNotFound :=
  c8_missing_checkpoint _ _ _ "d".toList rfl rfl rfl

/-! ### Claim C9: the header reader -/

/-- C9: the header reader fails with `MalformedHeader` on a file shorter
than 8 bytes and on a JSON-decoding failure of bytes `8 .. 8+L`; on a file
laid out as `le64(L) ++ header ++ payload` it returns exactly the decoded
header, never touching the payload. -/
theorem c9_header_reader {J : Type} (dec : List Nat → Option (List (SName × J))) :
    (∀ file : List Nat, file.length < 8 →
      get_safetensors_header file dec = Except.error StErr.malformedHeader) ∧
    (∀ file : List Nat, 8 ≤ file.length →
      dec ((file.drop 8).take (leU64 (file.take 8))) = none →
      get_safetensors_header file dec = Except.error StErr.malformedHeader) ∧
    (∀ (hb payload : List Nat) (H : List (SName × J)), hb.length < 2 ^ 64 →
      dec hb = some H →
      get_safetensors_header (encodeLE 8 hb.length ++ (hb ++ payload)) dec
        = Except.ok H) := by
  refine ⟨?_, ?_, ?_⟩
  · intro file h
    unfold get_safetensors_header
    rw [if_pos h]
  · intro file h hdec
    unfold get_safetensors_header
    rw [if_neg (by omega), hdec]
  · intro hb payload H hlen hdec
    have h8 : (encodeLE 8 hb.length).length = 8 := length_encodeLE 8 hb.length
    have hlen' : hb.length < 256 ^ 8 := by
      have h2 : (256 : Nat) ^ 8 = 2 ^ 64 := by norm_num
      omega
    unfold get_safetensors_header
    rw [if_neg (by rw [List.length_append, h8]; omega)]
    rw [List.take_left' h8, List.drop_left' h8, leU64_encodeLE 8 hb.length hlen']
    rw [List.take_left, hdec]

/-- Witness for C9 on a one-byte header document. -/
theorem c9_witness :
    get_safetensors_header (encodeLE 8 (List.length [42]) ++ ([42] ++ []))
      (fun bs => if bs = [42] then some [("a".toList, (7 : Nat))] else none)
      = Except.ok [("a".toList, (7 : Nat))] :=
  (c9_header_reader _).2.2 [42] [] [("a".toList, (7 : Nat))] (by norm_num) (by decide)

/-! ### Claim C10: the dense compressor is the identity -/

/-- The method `DenseCompressor.compress` returns the state dict unchanged. -/
def DenseCompressor.compress {V : Type} (model_state : List (SName × V)) :
    List (SName × V) :=
  model_state

/-- The method `DenseCompressor.decompress_from_state_dict`: the generator yields each
`(key, value)` pair of the state dict in order; embedded as the list of the
yielded pairs. -/
def DenseCompressor.decompress_from_state_dict {V : Type}
    (state_dict : List (SName × V)) : List (SName × V) :=
  state_dict.foldr (fun kv acc => (kv.1, kv.2) :: acc) []

/-- C10: compress is the identity and decompressing a compressed state dict
yields exactly its pairs in order. -/
theorem c10_dense_identity {V : Type} (sd : List (SName × V)) :
    DenseCompressor.compress sd = sd ∧
    DenseCompressor.decompress_from_state_dict (DenseCompressor.compress sd) = sd := by
  refine ⟨rfl, ?_⟩
  show DenseCompressor.decompress_from_state_dict sd = sd
  induction sd with
  | nil => rfl
  | cons kv rest ih =>
    show (kv.1, kv.2) :: DenseCompressor.decompress_from_state_dict rest = kv :: rest
    rw [ih]
